import Mathlib

/-!
Verification of the SimplEx explainer repository.

The repository's driver code (`experiments/mnist.py`,
`experiments/results/prostate/outlier/plot_results.py`) calls four core
components (`Simplex`, `NearNeighLatent`, `Representer`,
`ExponentialScheduler`) whose module sources are not part of the given
tree; those components are modelled from the specification, as indicated
in the doc comment of each such definition.  Exact rational arithmetic
stands in for the floating-point tensors of the original code, and
real-number arithmetic is used where the specification requires real
powers or square roots.
-/

set_option maxHeartbeats 1000000

/-- Width (number of columns) of a matrix represented as a list of rows,
   taken from the first row, mirroring `tensor.shape[1]`. -/
def matWidth (m : List (List ℚ)) : ℕ := (m.headD []).length

/-- Dot product of two rows, mirroring `torch.dot` / `torch.einsum` on
   equal-length vectors (extra entries of the longer vector are ignored). -/
def dotL (a b : List ℚ) : ℚ := (List.zipWith (fun x y => x * y) a b).sum

/-- Scale a row by a scalar. -/
def scaleRow (a : ℚ) (v : List ℚ) : List ℚ := v.map (fun x => a * x)

/-- Entrywise sum of two rows, padding the shorter row with zeros. -/
def vaddPad : List ℚ → List ℚ → List ℚ
  | [], b => b
  | a, [] => a
  | x :: a, y :: b => (x + y) :: vaddPad a b

/-- Linear combination of the rows of a matrix with the given coefficients:
   `combRow w M = Σ_c w_c • M_c`, the row-level core of `W @ corpus_latents`. -/
def combRow : List ℚ → List (List ℚ) → List ℚ
  | _, [] => []
  | [], _ => []
  | a :: w, r :: M => vaddPad (scaleRow a r) (combRow w M)

theorem vaddPad_nil (a : List ℚ) : vaddPad a [] = a := by
  cases a <;> rfl

theorem getD_vaddPad (a b : List ℚ) (k : ℕ) :
    (vaddPad a b).getD k 0 = a.getD k 0 + b.getD k 0 := by
  induction a generalizing b k with
  | nil => simp [vaddPad]
  | cons x a ih =>
    cases b with
    | nil => simp [vaddPad]
    | cons y b =>
      cases k with
      | zero => simp [vaddPad]
      | succ k => simpa [vaddPad] using ih b k

theorem getD_scaleRow (a : ℚ) (v : List ℚ) (k : ℕ) :
    (scaleRow a v).getD k 0 = a * v.getD k 0 := by
  have h := List.getD_map v (0 : ℚ) (f := fun x => a * x) (n := k)
  simpa [scaleRow] using h

theorem getD_combRow (w : List ℚ) (M : List (List ℚ)) (k : ℕ) :
    (combRow w M).getD k 0 =
      (List.zipWith (fun a r => a * (r : List ℚ).getD k 0) w M).sum := by
  induction w generalizing M with
  | nil => cases M <;> simp [combRow]
  | cons a w ih =>
    cases M with
    | nil => simp [combRow]
    | cons r M =>
      show (vaddPad (scaleRow a r) (combRow w M)).getD k 0 = _
      rw [getD_vaddPad, getD_scaleRow, ih, List.zipWith_cons_cons,
        List.sum_cons]

/-- Sum of a `zipWith` over two equal-length lists, rewritten as a sum over
   positions. -/
theorem sum_zipWith_eq_finset {α β : Type} (f : α → β → ℚ) (d₁ : α) (d₂ : β)
    (l₁ : List α) (l₂ : List β) (h : l₁.length = l₂.length) :
    (List.zipWith f l₁ l₂).sum =
      ∑ c ∈ Finset.range l₁.length, f (l₁.getD c d₁) (l₂.getD c d₂) := by
  induction l₁ generalizing l₂ with
  | nil => simp
  | cons a l ih =>
    cases l₂ with
    | nil => simp at h
    | cons r M =>
      have h' : l.length = M.length := by simpa using h
      rw [List.zipWith_cons_cons, List.sum_cons, ih M h', List.length_cons,
        Finset.sum_range_succ']
      simp [add_comm]

/-! ### Stable selection of indices by a rational key

Both the nearest-neighbour explainer ("select the `k` smallest distances")
and the final sparsification of the SimplEx weights ("retain the `n_keep`
largest weights") select indices by sorting on a key with stable,
lowest-index-first tie-breaking. -/

/-- Strict-then-index order on indices induced by a key; ties on the key are
   broken by the index, making the associated sort stable. -/
def selOrd {n : ℕ} (key : Fin n → ℚ) (i j : Fin n) : Prop :=
  key i < key j ∨ (key i = key j ∧ i ≤ j)

instance {n : ℕ} (key : Fin n → ℚ) : DecidableRel (selOrd key) := fun i j =>
  inferInstanceAs (Decidable (key i < key j ∨ (key i = key j ∧ i ≤ j)))

instance {n : ℕ} (key : Fin n → ℚ) : IsTotal (Fin n) (selOrd key) := by
  constructor
  intro i j
  rcases lt_trichotomy (key i) (key j) with h | h | h
  · exact Or.inl (Or.inl h)
  · rcases le_total i j with hij | hij
    · exact Or.inl (Or.inr ⟨h, hij⟩)
    · exact Or.inr (Or.inr ⟨h.symm, hij⟩)
  · exact Or.inr (Or.inl h)

instance {n : ℕ} (key : Fin n → ℚ) : IsTrans (Fin n) (selOrd key) := by
  constructor
  rintro i j l (h₁ | ⟨h₁, h₁'⟩) (h₂ | ⟨h₂, h₂'⟩)
  · exact Or.inl (h₁.trans h₂)
  · exact Or.inl (h₂ ▸ h₁)
  · exact Or.inl (h₁ ▸ h₂)
  · exact Or.inr ⟨h₁.trans h₂, h₁'.trans h₂'⟩

/-- All indices, sorted by the key in nondecreasing order with stable
   tie-breaking. -/
def sortIdx {n : ℕ} (key : Fin n → ℚ) : List (Fin n) :=
  List.insertionSort (selOrd key) (List.finRange n)

/-- The `k` indices with the smallest keys (stable, lowest-index-first). -/
def selectIdx {n : ℕ} (k : ℕ) (key : Fin n → ℚ) : List (Fin n) :=
  (sortIdx key).take k

theorem selOrd_key_le {n : ℕ} {key : Fin n → ℚ} {i j : Fin n}
    (h : selOrd key i j) : key i ≤ key j := by
  rcases h with h | ⟨h, _⟩
  · exact h.le
  · exact h.le

theorem sortIdx_length {n : ℕ} (key : Fin n → ℚ) :
    (sortIdx key).length = n := by
  simp [sortIdx, List.length_insertionSort]

theorem sortIdx_sorted {n : ℕ} (key : Fin n → ℚ) :
    List.Sorted (selOrd key) (sortIdx key) :=
  List.sorted_insertionSort (selOrd key) (List.finRange n)

theorem sortIdx_perm {n : ℕ} (key : Fin n → ℚ) :
    (sortIdx key).Perm (List.finRange n) :=
  List.perm_insertionSort (selOrd key) (List.finRange n)

theorem mem_sortIdx {n : ℕ} (key : Fin n → ℚ) (j : Fin n) :
    j ∈ sortIdx key :=
  ((sortIdx_perm key).mem_iff).mpr (List.mem_finRange j)

theorem sortIdx_nodup {n : ℕ} (key : Fin n → ℚ) :
    (sortIdx key).Nodup :=
  ((sortIdx_perm key).nodup_iff).mpr (List.nodup_finRange n)

theorem selectIdx_nodup {n : ℕ} (k : ℕ) (key : Fin n → ℚ) :
    (selectIdx k key).Nodup :=
  (List.take_sublist k (sortIdx key)).nodup (sortIdx_nodup key)

theorem selectIdx_length {n : ℕ} (k : ℕ) (key : Fin n → ℚ) :
    (selectIdx k key).length = min k n := by
  simp [selectIdx, List.length_take, sortIdx_length]

/-- A selected index relates to every unselected index: the selection really
   picks key-minimal indices. -/
theorem selectIdx_rel {n : ℕ} {k : ℕ} {key : Fin n → ℚ} {i j : Fin n}
    (hi : i ∈ selectIdx k key) (hj : j ∉ selectIdx k key) :
    selOrd key i j := by
  have hsplit : sortIdx key = selectIdx k key ++ (sortIdx key).drop k :=
    (List.take_append_drop k (sortIdx key)).symm
  have hpair : List.Pairwise (selOrd key) (sortIdx key) := sortIdx_sorted key
  rw [hsplit] at hpair
  have hj' : j ∈ (sortIdx key).drop k := by
    have hmem : j ∈ selectIdx k key ++ (sortIdx key).drop k := by
      rw [← hsplit]; exact mem_sortIdx key j
    rcases List.mem_append.mp hmem with h | h
    · exact absurd h hj
    · exact h
  exact ((List.pairwise_append.mp hpair).2.2) i hi j hj'

/-- The head of the sorted index list carries a minimal key. -/
theorem sortIdx_head_key_le {n : ℕ} {key : Fin n → ℚ} {h : Fin n}
    {t : List (Fin n)} (hcons : sortIdx key = h :: t) (j : Fin n) :
    key h ≤ key j := by
  have hj : j ∈ sortIdx key := mem_sortIdx key j
  rw [hcons] at hj
  rcases List.mem_cons.mp hj with rfl | hj
  · exact le_rfl
  · have hs : List.Sorted (selOrd key) (h :: t) := by
      rw [← hcons]; exact sortIdx_sorted key
    exact selOrd_key_le (List.rel_of_sorted_cons hs j hj)

/-! ### Euclidean projection onto the probability simplex

Modelled from the spec (§4.2, step 2e): "sort row values descending, find
the largest index where the running-mean-adjusted threshold keeps entries
positive, clip and renormalize (standard Euclidean simplex projection,
exact, not approximate)". -/

instance : IsTotal ℚ (fun a b => b ≤ a) := ⟨fun a b => le_total b a⟩

instance : IsTrans ℚ (fun a b => b ≤ a) :=
  ⟨fun _ _ _ h₁ h₂ => le_trans h₂ h₁⟩

instance : DecidableRel (fun a b : ℚ => b ≤ a) := fun a b =>
  inferInstanceAs (Decidable (b ≤ a))

/-- The values of a row, sorted in nonincreasing order. -/
def sortedDesc {n : ℕ} (v : Fin n → ℚ) : List ℚ :=
  List.insertionSort (fun a b => b ≤ a) ((List.finRange n).map v)

/-- Indices `j` (0-based) for which the running-mean-adjusted threshold keeps
   the `j`-th largest entry positive. -/
def projCand {n : ℕ} (v : Fin n → ℚ) : Finset ℕ :=
  (Finset.range n).filter
    (fun j => ((sortedDesc v).take (j + 1)).sum - 1 <
      ((j : ℚ) + 1) * (sortedDesc v).getD j 0)

/-- Number of entries kept positive by the simplex projection (the `ρ` of the
   standard algorithm). -/
def projRho {n : ℕ} (v : Fin n → ℚ) : ℕ := (projCand v).max.unbot' 0 + 1

/-- Threshold subtracted from every entry by the simplex projection. -/
def projTheta {n : ℕ} (v : Fin n → ℚ) : ℚ :=
  (((sortedDesc v).take (projRho v)).sum - 1) / (projRho v)

/-- Euclidean projection of a row onto the probability simplex: clip each
   entry at the threshold. -/
def projRow {n : ℕ} (v : Fin n → ℚ) : Fin n → ℚ :=
  fun i => max (v i - projTheta v) 0

theorem sortedDesc_length {n : ℕ} (v : Fin n → ℚ) :
    (sortedDesc v).length = n := by
  simp [sortedDesc, List.length_insertionSort]

theorem sortedDesc_perm {n : ℕ} (v : Fin n → ℚ) :
    (sortedDesc v).Perm ((List.finRange n).map v) :=
  List.perm_insertionSort _ _

theorem sortedDesc_anti {n : ℕ} (v : Fin n → ℚ) {i j : ℕ} (hij : i ≤ j)
    (hj : j < n) : (sortedDesc v).getD j 0 ≤ (sortedDesc v).getD i 0 := by
  have hs : List.Sorted (fun a b => b ≤ a) (sortedDesc v) :=
    List.sorted_insertionSort _ _
  have hj' : j < (sortedDesc v).length := by rw [sortedDesc_length]; exact hj
  have hi' : i < (sortedDesc v).length := lt_of_le_of_lt hij hj'
  rw [List.getD_eq_getElem _ _ hj', List.getD_eq_getElem _ _ hi']
  rcases eq_or_lt_of_le hij with rfl | hlt
  · exact le_rfl
  · exact List.pairwise_iff_get.mp hs ⟨i, hi'⟩ ⟨j, hj'⟩ hlt

theorem zero_mem_projCand {n : ℕ} (v : Fin n → ℚ) (h : 0 < n) :
    0 ∈ projCand v := by
  have hlen : 0 < (sortedDesc v).length := by rw [sortedDesc_length]; exact h
  have htake : ((sortedDesc v).take 1).sum = (sortedDesc v).getD 0 0 := by
    rcases hsd : sortedDesc v with - | ⟨x, l⟩
    · rw [hsd] at hlen; simp at hlen
    · simp
  rw [projCand, Finset.mem_filter]
  refine ⟨Finset.mem_range.mpr h, ?_⟩
  rw [htake]
  push_cast
  linarith

theorem projCand_nonempty {n : ℕ} (v : Fin n → ℚ) (h : 0 < n) :
    (projCand v).Nonempty := ⟨0, zero_mem_projCand v h⟩

theorem projRho_eq_max' {n : ℕ} (v : Fin n → ℚ) (h : 0 < n) :
    projRho v = (projCand v).max' (projCand_nonempty v h) + 1 := by
  rw [projRho, ← Finset.coe_max' (projCand_nonempty v h), WithBot.unbot'_coe]

theorem projRho_sub_one_mem {n : ℕ} (v : Fin n → ℚ) (h : 0 < n) :
    projRho v - 1 ∈ projCand v := by
  rw [projRho_eq_max' v h]
  simpa using Finset.max'_mem (projCand v) (projCand_nonempty v h)

theorem projRho_pos {n : ℕ} (v : Fin n → ℚ) : 0 < projRho v :=
  Nat.succ_pos _

theorem projRho_le {n : ℕ} (v : Fin n → ℚ) (h : 0 < n) : projRho v ≤ n := by
  rw [projRho_eq_max' v h]
  have hmem := Finset.max'_mem (projCand v) (projCand_nonempty v h)
  have := (Finset.mem_filter.mp hmem).1
  exact Nat.succ_le_of_lt (Finset.mem_range.mp this)

theorem not_mem_projCand_of_rho_le {n : ℕ} (v : Fin n → ℚ) (h : 0 < n)
    {j : ℕ} (hj : projRho v ≤ j) : j ∉ projCand v := by
  intro hmem
  have hle := Finset.le_max' (projCand v) j hmem
  rw [projRho_eq_max' v h] at hj
  omega

/-- Every entry among the `ρ` largest strictly exceeds the threshold. -/
theorem theta_lt_of_lt_rho {n : ℕ} (v : Fin n → ℚ) (h : 0 < n) {j : ℕ}
    (hj : j < projRho v) : projTheta v < (sortedDesc v).getD j 0 := by
  have hmem := projRho_sub_one_mem v h
  have hrpos := projRho_pos v
  have hm : projRho v - 1 + 1 = projRho v := Nat.succ_pred_eq_of_pos hrpos
  have hcond := (Finset.mem_filter.mp hmem).2
  rw [hm] at hcond
  have hrn : projRho v ≤ n := projRho_le v h
  have hcast : ((projRho v - 1 : ℕ) : ℚ) + 1 = (projRho v : ℚ) := by
    rw [Nat.cast_pred hrpos]; ring
  rw [hcast] at hcond
  have hrposQ : (0 : ℚ) < (projRho v : ℚ) := by exact_mod_cast hrpos
  have htheta : projTheta v < (sortedDesc v).getD (projRho v - 1) 0 := by
    rw [projTheta, div_lt_iff hrposQ]
    linarith [hcond]
  refine lt_of_lt_of_le htheta ?_
  exact sortedDesc_anti v (by omega) (by omega)

/-- Every entry beyond the `ρ` largest lies at or below the threshold. -/
theorem le_theta_of_rho_le {n : ℕ} (v : Fin n → ℚ) (h : 0 < n) {j : ℕ}
    (hj : projRho v ≤ j) (hjn : j < n) :
    (sortedDesc v).getD j 0 ≤ projTheta v := by
  have hrn : projRho v < n := lt_of_le_of_lt hj hjn
  have hnot := not_mem_projCand_of_rho_le v h (le_refl (projRho v))
  rw [projCand, Finset.mem_filter] at hnot
  push_neg at hnot
  have hcond := hnot (Finset.mem_range.mpr hrn)
  have hlen : projRho v < (sortedDesc v).length := by
    rw [sortedDesc_length]; exact hrn
  have hsucc : ((sortedDesc v).take (projRho v + 1)).sum =
      ((sortedDesc v).take (projRho v)).sum + (sortedDesc v).getD (projRho v) 0 := by
    rw [List.sum_take_succ _ _ hlen, List.getD_eq_getElem _ _ hlen]
  rw [hsucc] at hcond
  have hrposQ : (0 : ℚ) < (projRho v : ℚ) := by
    exact_mod_cast projRho_pos v
  have hrho_le : (sortedDesc v).getD (projRho v) 0 ≤ projTheta v := by
    rw [projTheta, le_div_iff hrposQ]
    nlinarith [hcond]
  exact le_trans (sortedDesc_anti v hj hjn) hrho_le

theorem sum_map_sub_const (l : List ℚ) (c : ℚ) :
    (l.map (fun x => x - c)).sum = l.sum - l.length * c := by
  induction l with
  | nil => simp
  | cons x l ih =>
    simp only [List.map_cons, List.sum_cons, List.length_cons, ih]
    push_cast
    ring

theorem projRow_nonneg {n : ℕ} (v : Fin n → ℚ) (i : Fin n) :
    0 ≤ projRow v i := le_max_right _ _

/-- The projected row sums to exactly 1: correctness of the simplex
   projection. -/
theorem projRow_sum {n : ℕ} (v : Fin n → ℚ) (h : 0 < n) :
    ∑ i, projRow v i = 1 := by
  classical
  set u := sortedDesc v with hu
  set θ := projTheta v with hθ
  set ρ := projRho v with hρ
  have hρn : ρ ≤ n := projRho_le v h
  have hlen : u.length = n := sortedDesc_length v
  have hperm : (u.map (fun x => max (x - θ) 0)).Perm
      (((List.finRange n).map v).map (fun x => max (x - θ) 0)) :=
    (sortedDesc_perm v).map _
  have hsum0 : ∑ i, projRow v i = (u.map (fun x => max (x - θ) 0)).sum := by
    rw [Fin.sum_univ_def]
    rw [hperm.sum_eq]
    rw [List.map_map]
    rfl
  have hsplit : u.map (fun x => max (x - θ) 0) =
      (u.take ρ).map (fun x => max (x - θ) 0) ++
      (u.drop ρ).map (fun x => max (x - θ) 0) := by
    rw [← List.map_append, List.take_append_drop]
  have htakelen : (u.take ρ).length = ρ := by
    rw [List.length_take, hlen]; omega
  have htake : ((u.take ρ).map (fun x => max (x - θ) 0)).sum =
      (u.take ρ).sum - ρ * θ := by
    have hcongr : (u.take ρ).map (fun x => max (x - θ) 0) =
        (u.take ρ).map (fun x => x - θ) := by
      refine List.map_congr_left ?_
      intro x hx
      rcases List.mem_iff_get.mp hx with ⟨⟨i, hi⟩, hgeti⟩
      have hiρ : i < ρ := by
        have := hi; rw [htakelen] at this; exact this
      have hin : i < u.length := by rw [hlen]; omega
      have hx_eq : x = u.getD i 0 := by
        rw [List.getD_eq_getElem _ _ hin, ← hgeti, List.get_eq_getElem,
          List.getElem_take]
      have hlt : θ < x := by rw [hx_eq]; exact theta_lt_of_lt_rho v h hiρ
      exact max_eq_left (by linarith)
    rw [hcongr, sum_map_sub_const, htakelen]
  have hdrop : ((u.drop ρ).map (fun x => max (x - θ) 0)).sum = 0 := by
    refine List.sum_eq_zero ?_
    intro y hy
    rcases List.mem_map.mp hy with ⟨x, hx, rfl⟩
    rcases List.mem_iff_get.mp hx with ⟨⟨i, hi⟩, hgeti⟩
    have hdl : (u.drop ρ).length = n - ρ := by rw [List.length_drop, hlen]
    have hin : ρ + i < u.length := by rw [hlen]; omega
    have hx_eq : x = u.getD (ρ + i) 0 := by
      rw [List.getD_eq_getElem _ _ hin, ← hgeti, List.get_eq_getElem,
        List.getElem_drop]
    have hle : x ≤ θ := by
      rw [hx_eq]
      exact le_theta_of_rho_le v h (by omega) (by rw [← hlen]; exact hin)
    exact max_eq_right (by linarith)
  have hρQ : ((ρ : ℚ)) ≠ 0 := by
    have := projRho_pos v
    positivity
  have hρθ : (ρ : ℚ) * θ = (u.take ρ).sum - 1 := by
    rw [hθ, projTheta, ← hρ, ← hu]
    field_simp
  rw [hsum0, hsplit, List.sum_append, htake, hdrop, hρθ]
  ring

/-! ### The SimplEx weight optimizer

Modelled from the spec (§4.2): no module source for `explainers.simplex` is
in the tree, only its callers in `experiments/mnist.py`.  The optimizer
initializes the T×C weight matrix uniformly, runs `n_epoch` epochs of a
momentum gradient step on the reconstruction-plus-regularization loss
followed by a per-row simplex projection, then keeps the `n_keep` largest
weights of each row and renormalizes.  Per spec §9, the exact
sparsity-promoting penalty is an implementation choice; here it is the
negated squared norm `-‖W‖²` (gradient `-2·W`), which pushes rows toward
low-entropy one-hot vectors as the regularization factor grows. -/

/-- Gradient of the mean squared reconstruction error
   `mean((W @ X - Y)²)` with respect to `W`. -/
def reconGrad (C D T : ℕ) (X : Fin C → Fin D → ℚ) (Y : Fin T → Fin D → ℚ)
    (W : Fin T → Fin C → ℚ) : Fin T → Fin C → ℚ :=
  fun t c => (2 / ((T : ℚ) * (D : ℚ))) *
    ∑ d, ((∑ c2, W t c2 * X c2 d) - Y t d) * X c d

/-- One optimizer epoch: momentum-accelerated gradient step on the
   reconstruction loss plus `r` times the penalty, then per-row projection
   onto the probability simplex.  State is `(weights, velocity)`. -/
def fitStep (C D T : ℕ) (X : Fin C → Fin D → ℚ) (Y : Fin T → Fin D → ℚ)
    (lr mu r : ℚ) (s : (Fin T → Fin C → ℚ) × (Fin T → Fin C → ℚ)) :
    (Fin T → Fin C → ℚ) × (Fin T → Fin C → ℚ) :=
  let G := fun t c => reconGrad C D T X Y s.1 t c + r * (-(2 : ℚ) * s.1 t c)
  let V := fun t c => mu * s.2 t c + G t c
  (fun t => projRow (fun c => s.1 t c - lr * V t c), V)

/-- Optimizer state after `e` epochs, starting from the uniform feasible
   initialization `1/C` with zero velocity; epoch `e` uses regularization
   strength `sched e`. -/
def runEpochs (C D T : ℕ) (X : Fin C → Fin D → ℚ) (Y : Fin T → Fin D → ℚ)
    (lr mu : ℚ) (sched : ℕ → ℚ) : ℕ →
    (Fin T → Fin C → ℚ) × (Fin T → Fin C → ℚ)
  | 0 => (fun _ _ => 1 / (C : ℚ), fun _ _ => 0)
  | Nat.succ e =>
      fitStep C D T X Y lr mu (sched (e + 1))
        (runEpochs C D T X Y lr mu sched e)

/-- Final sparsification of one row: keep the `k` largest weights (stable,
   lowest-index-first on ties), zero out the rest, renormalize to sum 1. -/
def sparsifyRow {n : ℕ} (k : ℕ) (w : Fin n → ℚ) : Fin n → ℚ :=
  fun i => if i ∈ selectIdx k (fun j => - w j) then
    w i / ((selectIdx k (fun j => - w j)).map w).sum else 0

/-- Fitted SimplEx weight matrix (no entry checks): run the optimizer and
   sparsify every row. -/
def simplexWeights (corpus test : List (List ℚ)) (k n_epoch : ℕ)
    (lr mu : ℚ) (sched : ℕ → ℚ) :
    Fin test.length → Fin corpus.length → ℚ :=
  fun t => sparsifyRow k
    ((runEpochs corpus.length (matWidth corpus) test.length
        (fun c d => (corpus.get c).getD d 0)
        (fun t2 d => (test.get t2).getD d 0) lr mu sched n_epoch).1 t)

/-- Fatal errors of `Simplex.fit`, from spec §7. -/
inductive FitError where
  | dimensionMismatch
  | invalidSparsityTarget
deriving DecidableEq

/-- Modelled from the spec: `Simplex.fit` — fails at entry when the corpus
   and test latent widths differ (DimensionMismatch) or when `n_keep` lies
   outside `[1, C]` (InvalidSparsityTarget); otherwise runs the optimizer to
   completion and returns the fitted weights. -/
def simplexFit (corpus test : List (List ℚ)) (k n_epoch : ℕ) (lr mu : ℚ)
    (sched : ℕ → ℚ) :
    Except FitError (Fin test.length → Fin corpus.length → ℚ) :=
  if matWidth corpus ≠ matWidth test then Except.error FitError.dimensionMismatch
  else if k < 1 ∨ corpus.length < k then
    Except.error FitError.invalidSparsityTarget
  else Except.ok (simplexWeights corpus test k n_epoch lr mu sched)

/-- After any number of epochs every weight row lies on the probability
   simplex: entries are nonnegative and sum to 1. -/
theorem runEpochs_row_on_simplex (C D T : ℕ) (X : Fin C → Fin D → ℚ)
    (Y : Fin T → Fin D → ℚ) (lr mu : ℚ) (sched : ℕ → ℚ) (hC : 0 < C)
    (e : ℕ) (t : Fin T) :
    (∀ c, 0 ≤ (runEpochs C D T X Y lr mu sched e).1 t c) ∧
      (∑ c, (runEpochs C D T X Y lr mu sched e).1 t c) = 1 := by
  cases e with
  | zero =>
    constructor
    · intro c
      show (0 : ℚ) ≤ 1 / (C : ℚ)
      positivity
    · show (∑ _c : Fin C, 1 / (C : ℚ)) = 1
      rw [Finset.sum_const, Finset.card_univ, Fintype.card_fin]
      have : ((C : ℚ)) ≠ 0 := by positivity
      field_simp
  | succ e =>
    constructor
    · intro c
      exact projRow_nonneg _ c
    · exact projRow_sum _ hC

theorem sum_pos_exists {n : ℕ} (w : Fin n → ℚ) (hsum : (∑ c, w c) = 1) :
    ∃ c, 0 < w c := by
  by_contra hno
  push_neg at hno
  have hle : (∑ c, w c) ≤ 0 := Finset.sum_nonpos (fun i _ => hno i)
  rw [hsum] at hle
  linarith


/-- Sparsifying a simplex row yields a simplex row with at most `k`
   strictly-positive entries. -/
theorem sparsifyRow_props {n : ℕ} (k : ℕ) (w : Fin n → ℚ) (hn : 0 < n)
    (hk : 0 < k) (hnn : ∀ c, 0 ≤ w c) (hsum : (∑ c, w c) = 1) :
    (∀ c, 0 ≤ sparsifyRow k w c) ∧ (∑ c, sparsifyRow k w c) = 1 ∧
      (Finset.univ.filter (fun c => 0 < sparsifyRow k w c)).card ≤ k := by
  classical
  set kept := selectIdx k (fun j => - w j) with hkeptdef
  set s := (kept.map w).sum with hsdef
  rcases hcons : sortIdx (fun j : Fin n => - w j) with - | ⟨h₀, tl⟩
  · have hlen := sortIdx_length (fun j : Fin n => - w j)
    rw [hcons] at hlen
    simp at hlen
    omega
  · have hh₀mem : h₀ ∈ kept := by
      rcases Nat.exists_eq_add_of_lt hk with ⟨k', rfl⟩
      rw [hkeptdef, selectIdx, hcons]
      rw [Nat.zero_add, List.take_succ_cons]
      exact List.mem_cons_self h₀ _
    have hmax : ∀ j, w j ≤ w h₀ := by
      intro j
      have := sortIdx_head_key_le hcons j
      linarith
    obtain ⟨c₀, hc₀⟩ := sum_pos_exists w hsum
    have hmapnn : ∀ x ∈ kept.map w, (0 : ℚ) ≤ x := by
      intro x hx
      rcases List.mem_map.mp hx with ⟨i, _, rfl⟩
      exact hnn i
    have hs_pos : 0 < s := by
      have h₁ : w h₀ ≤ s :=
        List.single_le_sum hmapnn _ (List.mem_map_of_mem w hh₀mem)
      have h₂ : 0 < w h₀ := lt_of_lt_of_le hc₀ (hmax c₀)
      linarith
    have hnodup : kept.Nodup := selectIdx_nodup k _
    have hval : ∀ c, sparsifyRow k w c = if c ∈ kept then w c / s else 0 := by
      intro c; rfl
    refine ⟨?_, ?_, ?_⟩
    · intro c
      rw [hval]
      by_cases hc : c ∈ kept
      · rw [if_pos hc]
        exact div_nonneg (hnn c) hs_pos.le
      · rw [if_neg hc]
    · have hstep : (∑ c, sparsifyRow k w c) =
          ∑ c ∈ Finset.univ ∩ kept.toFinset, w c / s := by
        rw [← Finset.sum_ite_mem]
        refine Finset.sum_congr rfl ?_
        intro c _
        rw [hval]
        by_cases hc : c ∈ kept
        · rw [if_pos hc, if_pos (List.mem_toFinset.mpr hc)]
        · rw [if_neg hc, if_neg (fun hmem => hc (List.mem_toFinset.mp hmem))]
      rw [hstep, Finset.univ_inter, ← Finset.sum_div,
        List.sum_toFinset w hnodup, ← hsdef]
      exact div_self (ne_of_gt hs_pos)
    · have hsubset : Finset.univ.filter (fun c => 0 < sparsifyRow k w c) ⊆
          kept.toFinset := by
        intro c hc
        have hpos := (Finset.mem_filter.mp hc).2
        rw [hval] at hpos
        by_cases hmem : c ∈ kept
        · exact List.mem_toFinset.mpr hmem
        · rw [if_neg hmem] at hpos
          exact absurd hpos (lt_irrefl 0)
      refine le_trans (Finset.card_le_card hsubset) ?_
      refine le_trans (List.toFinset_card_le kept) ?_
      rw [hkeptdef, selectIdx_length]
      exact min_le_left _ _

/-- C1: for every SimplEx explainer, after `fit` completes (including the
   final sparsification step), every row of the fitted T×C weight matrix has
   all entries nonnegative, sums to exactly 1 (hence within any floating
   tolerance such as `1e-6`), and has at most `n_keep` strictly-positive
   entries. -/
theorem simplex_fit_rows_on_simplex (corpus test : List (List ℚ))
    (k n_epoch : ℕ) (lr mu : ℚ) (sched : ℕ → ℚ)
    (W : Fin test.length → Fin corpus.length → ℚ)
    (hfit : simplexFit corpus test k n_epoch lr mu sched = Except.ok W)
    (t : Fin test.length) :
    (∀ c, 0 ≤ W t c) ∧ (∑ c, W t c) = 1 ∧
      (Finset.univ.filter (fun c => 0 < W t c)).card ≤ k := by
  rw [simplexFit] at hfit
  by_cases h1 : matWidth corpus ≠ matWidth test
  · rw [if_pos h1] at hfit
    exact Except.noConfusion hfit
  · rw [if_neg h1] at hfit
    by_cases h2 : k < 1 ∨ corpus.length < k
    · rw [if_pos h2] at hfit
      exact Except.noConfusion hfit
    · rw [if_neg h2] at hfit
      push_neg at h2
      obtain ⟨hk1, hk2⟩ := h2
      have hC : 0 < corpus.length := lt_of_lt_of_le hk1 hk2
      injection hfit with hW
      subst hW
      have hrow := runEpochs_row_on_simplex corpus.length (matWidth corpus)
        test.length (fun c d => (corpus.get c).getD d 0)
        (fun t2 d => (test.get t2).getD d 0) lr mu sched hC n_epoch t
      exact sparsifyRow_props k _ hC hk1 hrow.1 hrow.2

/-- Witness for C1 at a concrete instance: corpus `[[0], [1]]`, test
   `[[1/2]]`, `n_keep = 1`, one epoch. -/
theorem simplex_fit_rows_on_simplex_witness :
    (∀ c, 0 ≤ simplexWeights [[0], [1]] [[1/2]] 1 1 1 (1/2)
        (fun _ => 1) ⟨0, by decide⟩ c) ∧
      (∑ c, simplexWeights [[0], [1]] [[1/2]] 1 1 1 (1/2)
        (fun _ => 1) ⟨0, by decide⟩ c) = 1 ∧
      (Finset.univ.filter (fun c => 0 < simplexWeights [[0], [1]] [[1/2]] 1 1
        1 (1/2) (fun _ => 1) ⟨0, by decide⟩ c)).card ≤ 1 :=
  simplex_fit_rows_on_simplex [[0], [1]] [[1/2]] 1 1 1 (1/2)
    (fun _ => 1) _ rfl ⟨0, by decide⟩

/-- C3: `Simplex.fit` fails, fatally and at fit entry, if and only if
   `n_keep` lies outside `[1, C]` or the corpus and test latent matrices
   have differing widths; the returned error classifies the failure, and for
   all inputs satisfying both preconditions the fit succeeds. -/
theorem simplex_fit_error_characterization (corpus test : List (List ℚ))
    (k n_epoch : ℕ) (lr mu : ℚ) (sched : ℕ → ℚ) :
    ((simplexFit corpus test k n_epoch lr mu sched).isOk = true ↔
      (1 ≤ k ∧ k ≤ corpus.length ∧ matWidth corpus = matWidth test)) ∧
    (simplexFit corpus test k n_epoch lr mu sched =
        Except.error FitError.dimensionMismatch ↔
      matWidth corpus ≠ matWidth test) ∧
    (simplexFit corpus test k n_epoch lr mu sched =
        Except.error FitError.invalidSparsityTarget ↔
      (matWidth corpus = matWidth test ∧ ¬(1 ≤ k ∧ k ≤ corpus.length))) := by
  by_cases h1 : matWidth corpus ≠ matWidth test
  · rw [simplexFit, if_pos h1]
    refine ⟨?_, ?_, ?_⟩
    · simp only [Except.isOk]
      constructor
      · intro h; exact Bool.noConfusion h
      · rintro ⟨-, -, heq⟩; exact absurd heq h1
    · simp [h1]
    · constructor
      · intro h; injection h with h'; exact FitError.noConfusion h'
      · rintro ⟨heq, -⟩; exact absurd heq h1
  · push_neg at h1
    by_cases h2 : k < 1 ∨ corpus.length < k
    · rw [simplexFit, if_neg (fun hne => hne h1), if_pos h2]
      refine ⟨?_, ?_, ?_⟩
      · simp only [Except.isOk]
        constructor
        · intro h; exact Bool.noConfusion h
        · rintro ⟨hk1, hk2, -⟩; omega
      · constructor
        · intro h; injection h with h'; exact FitError.noConfusion h'
        · intro hne; exact absurd h1 hne
      · refine ⟨fun _ => ⟨h1, ?_⟩, fun _ => rfl⟩
        omega
    · rw [simplexFit, if_neg (fun hne => hne h1), if_neg h2]
      push_neg at h2
      refine ⟨?_, ?_, ?_⟩
      · simp only [Except.isOk]
        exact ⟨fun _ => ⟨h2.1, h2.2, h1⟩, fun _ => rfl⟩
      · constructor
        · intro h; exact Except.noConfusion h
        · intro hne; exact absurd h1 hne
      · constructor
        · intro h; exact Except.noConfusion h
        · rintro ⟨-, hcon⟩
          exact absurd ⟨h2.1, h2.2⟩ hcon

/-! ### The nearest-neighbour explainer

Modelled from the spec (§4.3): no module source for
`explainers.nearest_neighbours` is in the tree, only its callers.  For each
test row, distances to all corpus rows are computed, the `k` smallest are
selected (stable, lowest-index-first tie-breaking), and weights are either
uniform `1/k` on the selected set or inverse-distance weights normalized to
sum to 1, with a zero-distance guard giving an exact match weight 1.
Squared Euclidean distance is used as the computable surrogate for
Euclidean distance: its ordering, ties and zero set agree with those of
Euclidean distance. -/

/-- Squared Euclidean distance between two latent rows. -/
def sqDist {D : ℕ} (x z : Fin D → ℚ) : ℚ := ∑ d, (x d - z d) ^ 2

/-- Distances of test row `t` to all corpus rows. -/
def nnDistRow (C D T : ℕ) (X : Fin C → Fin D → ℚ) (Z : Fin T → Fin D → ℚ)
    (t : Fin T) : Fin C → ℚ :=
  fun c => sqDist (X c) (Z t)

/-- Corpus indices of the `k` nearest neighbours of test row `t`. -/
def nnSelect (C D T : ℕ) (X : Fin C → Fin D → ℚ) (Z : Fin T → Fin D → ℚ)
    (k : ℕ) (t : Fin T) : List (Fin C) :=
  selectIdx k (nnDistRow C D T X Z t)

/-- Weight row of the "uniform" variant: `1/k` on each selected neighbour. -/
def nnUniformWeights (C D T : ℕ) (X : Fin C → Fin D → ℚ)
    (Z : Fin T → Fin D → ℚ) (k : ℕ) : Fin T → Fin C → ℚ :=
  fun t c => if c ∈ nnSelect C D T X Z k t then 1 / (k : ℚ) else 0

/-- Weight row of the "distance" variant: inverse-distance weights
   normalized to sum to 1 over the selected set, guarded so that a selected
   exact match (distance zero) gets weight 1 and all others 0. -/
def distWeightRow {n : ℕ} (key : Fin n → ℚ) (sel : List (Fin n)) :
    Fin n → ℚ :=
  match sel.filter (fun c => decide (key c = 0)) with
  | [] => fun c => if c ∈ sel then
      (key c)⁻¹ / (sel.map (fun c2 => (key c2)⁻¹)).sum else 0
  | z :: _ => fun c => if c = z then 1 else 0

/-- Weight matrix of the "distance" variant. -/
def nnDistanceWeights (C D T : ℕ) (X : Fin C → Fin D → ℚ)
    (Z : Fin T → Fin D → ℚ) (k : ℕ) : Fin T → Fin C → ℚ :=
  fun t => distWeightRow (nnDistRow C D T X Z t) (nnSelect C D T X Z k t)

/-- Reconstructed latents `W @ corpus_latents` of any explainer, the shared
   `latent_approx` contract of spec §4.2 and §4.3. -/
def latentApproxF (C D T : ℕ) (X : Fin C → Fin D → ℚ)
    (W : Fin T → Fin C → ℚ) : Fin T → Fin D → ℚ :=
  fun t d => ∑ c, W t c * X c d

theorem sqDist_nonneg {D : ℕ} (x z : Fin D → ℚ) : 0 ≤ sqDist x z :=
  Finset.sum_nonneg (fun d _ => sq_nonneg _)

theorem sqDist_self {D : ℕ} (x : Fin D → ℚ) : sqDist x x = 0 := by
  rw [sqDist]
  exact Finset.sum_eq_zero (fun d _ => by ring)

theorem sqDist_eq_zero_iff {D : ℕ} (x z : Fin D → ℚ) :
    sqDist x z = 0 ↔ x = z := by
  constructor
  · intro h
    funext d
    have hall := (Finset.sum_eq_zero_iff_of_nonneg
      (fun d _ => sq_nonneg (x d - z d))).mp h
    have hd := hall d (Finset.mem_univ d)
    have := (pow_eq_zero_iff (two_ne_zero)).mp hd
    exact sub_eq_zero.mp this
  · rintro rfl
    exact sqDist_self x

/-- The selected set of the nearest-neighbour explainer is the unique
   `k`-element set strictly separated in distance from its complement. -/
theorem nnSelect_toFinset_eq (C D T : ℕ) (X : Fin C → Fin D → ℚ)
    (Z : Fin T → Fin D → ℚ) (k : ℕ) (t : Fin T) (S : Finset (Fin C))
    (hcard : S.card = k)
    (hsep : ∀ i ∈ S, ∀ j ∉ S,
      nnDistRow C D T X Z t i < nnDistRow C D T X Z t j) :
    (nnSelect C D T X Z k t).toFinset = S := by
  classical
  set key := nnDistRow C D T X Z t with hkey
  have hkC : k ≤ C := by
    have := Finset.card_le_univ S
    rw [hcard, Fintype.card_fin] at this
    exact this
  have hlen : (nnSelect C D T X Z k t).length = k := by
    rw [nnSelect, selectIdx_length]
    omega
  have hndp : (nnSelect C D T X Z k t).Nodup := selectIdx_nodup k key
  have hcardsel : (nnSelect C D T X Z k t).toFinset.card = k := by
    rw [List.toFinset_card_of_nodup hndp, hlen]
  have hsub : (nnSelect C D T X Z k t).toFinset ⊆ S := by
    intro i hi
    have hisel : i ∈ nnSelect C D T X Z k t := List.mem_toFinset.mp hi
    by_contra hiS
    have hex : ∃ j ∈ S, j ∉ nnSelect C D T X Z k t := by
      by_contra hno
      push_neg at hno
      have hSsub : S ⊆ (nnSelect C D T X Z k t).toFinset := by
        intro j hj
        exact List.mem_toFinset.mpr (hno j hj)
      have : S = (nnSelect C D T X Z k t).toFinset :=
        Finset.eq_of_subset_of_card_le hSsub (by omega)
      rw [← this] at hi
      exact hiS hi
    obtain ⟨j, hjS, hjsel⟩ := hex
    have hlt : key j < key i := hsep j hjS i hiS
    have hle : key i ≤ key j := selOrd_key_le (selectIdx_rel hisel hjsel)
    linarith
  exact Finset.eq_of_subset_of_card_le hsub (by omega)

/-- C5: in the uniform variant, when the distances of a test example to the
   corpus admit a strictly separated set `S` of `k` nearest corpus points
   (no ties at the `k`-th smallest distance), the reconstructed latent
   vector equals exactly the unweighted mean of the latents of those `k`
   nearest corpus points. -/
theorem nn_uniform_latent_approx_is_mean (C D T : ℕ)
    (X : Fin C → Fin D → ℚ) (Z : Fin T → Fin D → ℚ) (k : ℕ) (t : Fin T)
    (S : Finset (Fin C)) (hcard : S.card = k)
    (hsep : ∀ i ∈ S, ∀ j ∉ S,
      nnDistRow C D T X Z t i < nnDistRow C D T X Z t j) (d : Fin D) :
    latentApproxF C D T X (nnUniformWeights C D T X Z k) t d =
      (∑ c ∈ S, X c d) / (k : ℚ) := by
  classical
  have hS := nnSelect_toFinset_eq C D T X Z k t S hcard hsep
  have hstep : latentApproxF C D T X (nnUniformWeights C D T X Z k) t d =
      ∑ c, (if c ∈ (nnSelect C D T X Z k t).toFinset then
        (1 / (k : ℚ)) * X c d else 0) := by
    rw [latentApproxF]
    refine Finset.sum_congr rfl ?_
    intro c _
    rw [nnUniformWeights]
    by_cases hc : c ∈ nnSelect C D T X Z k t
    · rw [if_pos hc, if_pos (List.mem_toFinset.mpr hc)]
    · rw [if_neg hc, if_neg (fun hmem => hc (List.mem_toFinset.mp hmem)),
        zero_mul]
  rw [hstep, Finset.sum_ite_mem, Finset.univ_inter, hS, ← Finset.mul_sum]
  ring

/-- Witness for C5 at a concrete instance: corpus latents `(0)` and `(1)`,
   test latent `(0)`, `k = 1`, nearest set `{0}`. -/
theorem nn_uniform_latent_approx_is_mean_witness :
    (({0} : Finset (Fin 2)).card = 1) ∧
      (∀ i ∈ ({0} : Finset (Fin 2)), ∀ j ∉ ({0} : Finset (Fin 2)),
        nnDistRow 2 1 1 ![![0], ![1]] ![![0]] 0 i <
          nnDistRow 2 1 1 ![![0], ![1]] ![![0]] 0 j) ∧
      latentApproxF 2 1 1 ![![0], ![1]]
          (nnUniformWeights 2 1 1 ![![0], ![1]] ![![0]] 1) 0 0 =
        (∑ c ∈ ({0} : Finset (Fin 2)), ![![0], ![1]] c 0) / ((1 : ℕ) : ℚ) :=
  ⟨by decide, by with_unfolding_all decide,
    nn_uniform_latent_approx_is_mean 2 1 1 ![![0], ![1]] ![![0]] 1 0 {0}
      (by decide) (by with_unfolding_all decide) 0⟩

/-- C6: in the distance variant, when the latent vector of a test example
   coincides exactly with the latent vector of corpus point `j` (and with no
   other corpus latent), the fitted weight row of that test example is
   one-hot on `j`. -/
theorem nn_distance_exact_match_one_hot (C D T : ℕ)
    (X : Fin C → Fin D → ℚ) (Z : Fin T → Fin D → ℚ) (k : ℕ) (t : Fin T)
    (j : Fin C) (hk : 0 < k) (hmatch : X j = Z t)
    (huniq : ∀ c, c ≠ j → X c ≠ Z t) (c : Fin C) :
    nnDistanceWeights C D T X Z k t c = if c = j then 1 else 0 := by
  classical
  set key := nnDistRow C D T X Z t with hkeydef
  have hkey_zero_iff : ∀ c2 : Fin C, key c2 = 0 ↔ c2 = j := by
    intro c2
    constructor
    · intro h0
      by_contra hne
      exact huniq c2 hne ((sqDist_eq_zero_iff (X c2) (Z t)).mp h0)
    · rintro rfl
      show sqDist (X c2) (Z t) = 0
      rw [hmatch]
      exact sqDist_self (Z t)
  have hjsel : j ∈ nnSelect C D T X Z k t := by
    by_contra hj
    have hCpos : 0 < C := j.pos
    have hlenpos : 0 < (nnSelect C D T X Z k t).length := by
      rw [nnSelect, selectIdx_length]
      omega
    rcases hx : nnSelect C D T X Z k t with - | ⟨x, rest⟩
    · rw [hx] at hlenpos; simp at hlenpos
    · have hxsel : x ∈ nnSelect C D T X Z k t := by
        rw [hx]; exact List.mem_cons_self x rest
      have hrel : selOrd key x j := selectIdx_rel hxsel hj
      have hxnn : 0 ≤ key x := sqDist_nonneg _ _
      have hkeyj : key j = 0 := (hkey_zero_iff j).mpr rfl
      rcases hrel with hlt | ⟨heq, -⟩
      · rw [hkeyj] at hlt; linarith
      · rw [hkeyj] at heq
        have : x = j := (hkey_zero_iff x).mp heq
        rw [this] at hxsel
        exact hj hxsel
  have hjfil : j ∈ (nnSelect C D T X Z k t).filter
      (fun c2 => decide (key c2 = 0)) := by
    rw [List.mem_filter]
    exact ⟨hjsel, decide_eq_true ((hkey_zero_iff j).mpr rfl)⟩
  cases hfil : (nnSelect C D T X Z k t).filter
      (fun c2 => decide (key c2 = 0)) with
  | nil =>
    rw [hfil] at hjfil
    exact absurd hjfil (List.not_mem_nil j)
  | cons z rest =>
    have hz : z = j := by
      have hzfil : z ∈ (nnSelect C D T X Z k t).filter
          (fun c2 => decide (key c2 = 0)) := by
        rw [hfil]; exact List.mem_cons_self z rest
      rw [List.mem_filter] at hzfil
      exact (hkey_zero_iff z).mp (of_decide_eq_true hzfil.2)
    show distWeightRow key (nnSelect C D T X Z k t) c = _
    rw [distWeightRow]
    rw [hfil, hz]

/-- Witness for C6 at a concrete instance: the test latent `(1)` coincides
   exactly with corpus point 1 of corpus latents `(0)` and `(1)`. -/
theorem nn_distance_exact_match_one_hot_witness :
    nnDistanceWeights 2 1 1 ![![0], ![1]] ![![1]] 1 0 0 =
        (if (0 : Fin 2) = 1 then 1 else 0) ∧
      nnDistanceWeights 2 1 1 ![![0], ![1]] ![![1]] 1 0 1 =
        (if (1 : Fin 2) = 1 then 1 else 0) :=
  ⟨nn_distance_exact_match_one_hot 2 1 1 ![![0], ![1]] ![![1]] 1 0 1
      (by decide) (by with_unfolding_all decide)
      (by with_unfolding_all decide) 0,
    nn_distance_exact_match_one_hot 2 1 1 ![![0], ![1]] ![![1]] 1 0 1
      (by decide) (by with_unfolding_all decide)
      (by with_unfolding_all decide) 1⟩

/-! ### The representer explainer

Modelled from the spec (§4.4): no module source for
`explainers.representer` is in the tree, only its callers.  Fitting solves
the ridge-regularized regression on the corpus in closed form: the
per-corpus-example, per-class coefficient is the residual signal
(true-class indicator minus predicted probability) scaled by
`1 / (2·reg·C)`, which depends on the corpus only.  `output_approx`
reconstructs output logits of arbitrary test latents as kernel-weighted
sums of those coefficients. -/

/-- Per-corpus-example, per-class representer coefficients, computed from
   the corpus only. -/
def representerCoeffs (cl cp ct : List (List ℚ)) (reg : ℚ) :
    List (List ℚ) :=
  List.zipWith
    (fun yrow prow => List.zipWith
      (fun y p => (y - p) / (2 * reg * (cl.length : ℚ))) yrow prow)
    ct cp

/-- Fitted state of the representer explainer. -/
structure RepresenterState where
  coeffs : List (List ℚ)
  corpusLatents : List (List ℚ)
  testLatents : List (List ℚ)

/-- Fit the representer: compute the coefficients from the corpus latents
   `cl`, corpus probabilities `cp` and corpus one-hot true classes `ct`, and
   store the test latents for later querying only. -/
def representerFit (cl cp ct : List (List ℚ)) (reg : ℚ)
    (testLatents : List (List ℚ)) : RepresenterState :=
  { coeffs := representerCoeffs cl cp ct reg, corpusLatents := cl,
    testLatents := testLatents }

/-- Reconstructed output logits: for each test row, the kernel similarities
   to all corpus rows combined with the coefficient rows. -/
def representerOutputApprox (st : RepresenterState) : List (List ℚ) :=
  st.testLatents.map
    (fun z => combRow (st.corpusLatents.map (fun x => dotL x z)) st.coeffs)

theorem dotL_nil_right (x : List ℚ) : dotL x [] = 0 := by
  rw [dotL, List.zipWith_nil_right, List.sum_nil]

/-- C4: the `(t, k)` entry of `output_approx` equals the sum over corpus
   examples `c` of `coefficient_{c,k}` times the inner product of corpus
   latent `c` with test latent `t`, and fitting involves no per-test-example
   work: the coefficients do not depend on the test latents. -/
theorem getD_map_row {α : Type} (f : α → List ℚ) (l : List α) {t : ℕ}
    (ht : t < l.length) : (l.map f).getD t [] = f l[t] := by
  have hlen : t < (l.map f).length := by
    rw [List.length_map]; exact ht
  rw [List.getD_eq_getElem _ _ hlen, List.getElem_map]

theorem representer_output_approx_spec (cl cp ct : List (List ℚ)) (reg : ℚ)
    (test : List (List ℚ)) (hct : ct.length = cl.length)
    (hcp : cp.length = cl.length) (t kcls : ℕ) :
    (∀ test1 test2, (representerFit cl cp ct reg test1).coeffs =
      (representerFit cl cp ct reg test2).coeffs) ∧
    ((representerOutputApprox (representerFit cl cp ct reg test)).getD t
        []).getD kcls 0 =
      ∑ c ∈ Finset.range cl.length,
        ((representerFit cl cp ct reg test).coeffs.getD c []).getD kcls 0 *
          dotL (cl.getD c []) (test.getD t []) := by
  constructor
  · intro test1 test2
    rfl
  · have hclen : (representerCoeffs cl cp ct reg).length = cl.length := by
      rw [representerCoeffs, List.length_zipWith]
      omega
    have hrepr : representerOutputApprox (representerFit cl cp ct reg test) =
        test.map (fun z => combRow (cl.map (fun x => dotL x z))
          (representerCoeffs cl cp ct reg)) := rfl
    have hcoe : (representerFit cl cp ct reg test).coeffs =
        representerCoeffs cl cp ct reg := rfl
    rw [hrepr, hcoe]
    by_cases ht : t < test.length
    · rw [getD_map_row _ _ ht, ← List.getD_eq_getElem _ _ ht, getD_combRow,
        List.zipWith_map_left]
      have hlen2 : cl.length = (representerCoeffs cl cp ct reg).length :=
        hclen.symm
      rw [sum_zipWith_eq_finset _ ([] : List ℚ) ([] : List ℚ) cl
        (representerCoeffs cl cp ct reg) hlen2]
      refine Finset.sum_congr rfl ?_
      intro c _
      show dotL (cl.getD c []) (test.getD t []) * _ = _
      rw [mul_comm]
    · push_neg at ht
      have houter : (test.map (fun z => combRow (cl.map (fun x => dotL x z))
          (representerCoeffs cl cp ct reg))).getD t [] = [] := by
        refine List.getD_eq_default _ _ ?_
        rw [List.length_map]
        exact ht
      rw [houter]
      have hz : test.getD t [] = [] := List.getD_eq_default _ _ ht
      rw [hz]
      refine Eq.symm (Finset.sum_eq_zero ?_)
      intro c _
      rw [dotL_nil_right, mul_zero]

/-- Witness for C4 at a concrete instance: one corpus example with latent
   `(1)`, probabilities `(1/2, 1/2)`, true class `(1, 0)`, one test latent
   `(2)`. -/
theorem representer_output_approx_spec_witness :
    (∀ test1 test2,
      (representerFit [[1]] [[1/2, 1/2]] [[1, 0]] 1 test1).coeffs =
        (representerFit [[1]] [[1/2, 1/2]] [[1, 0]] 1 test2).coeffs) ∧
    ((representerOutputApprox
        (representerFit [[1]] [[1/2, 1/2]] [[1, 0]] 1 [[2]])).getD 0
        []).getD 0 0 =
      ∑ c ∈ Finset.range ([[(1 : ℚ)]].length),
        ((representerFit [[1]] [[1/2, 1/2]] [[1, 0]] 1 [[2]]).coeffs.getD c
            []).getD 0 0 *
          dotL ([[(1 : ℚ)]].getD c []) ([[(2 : ℚ)]].getD 0 []) :=
  representer_output_approx_spec [[1]] [[1/2, 1/2]] [[1, 0]] 1 [[2]]
    (by decide) (by decide) 0 0

/-! ### Persistence of fitted explainers

Modelled from the spec (§6): the persistence collaborator serializes a
fitted explainer's weight (or coefficient) matrix together with the corpus
and test latent matrices it references, and round-trips must reproduce
identical `latent_approx` / `output_approx` outputs.  The blob is a flat
list of rationals with length headers. -/

/-- State of a fitted explainer as persisted: weight/coefficient matrix plus
   the corpus and test latent matrices. -/
structure ExplainerData where
  weights : List (List ℚ)
  corpusLatents : List (List ℚ)
  testLatents : List (List ℚ)

/-- `latent_approx` of a persisted explainer: `W @ corpus_latents`. -/
def latentApproxL (e : ExplainerData) : List (List ℚ) :=
  e.weights.map (fun w => combRow w e.corpusLatents)

/-- `output_approx` of a persisted explainer: kernel similarities to the
   corpus combined with the stored coefficient rows. -/
def outputApproxL (e : ExplainerData) : List (List ℚ) :=
  e.testLatents.map
    (fun z => combRow (e.corpusLatents.map (fun x => dotL x z)) e.weights)

/-- Serialize one row: length header followed by the entries. -/
def encodeVec (v : List ℚ) : List ℚ := ((v.length : ℚ)) :: v

/-- Serialize the rows of a matrix in order. -/
def encodeRows : List (List ℚ) → List ℚ
  | [] => []
  | v :: m => encodeVec v ++ encodeRows m

/-- Serialize a matrix: row-count header followed by the serialized rows. -/
def encodeMat (m : List (List ℚ)) : List ℚ := ((m.length : ℚ)) :: encodeRows m

/-- Read back one row; returns the row and the remaining blob. -/
def decodeVec : List ℚ → Option (List ℚ × List ℚ)
  | [] => none
  | q :: rest =>
      if q.num.toNat ≤ rest.length then
        some (rest.take q.num.toNat, rest.drop q.num.toNat)
      else none

/-- Read back `cnt` rows; returns the rows and the remaining blob. -/
def decodeRows : ℕ → List ℚ → Option (List (List ℚ) × List ℚ)
  | 0, l => some ([], l)
  | Nat.succ cnt, l =>
      match decodeVec l with
      | none => none
      | some (v, rest) =>
          match decodeRows cnt rest with
          | none => none
          | some (m, rest2) => some (v :: m, rest2)

/-- Read back a matrix; returns the matrix and the remaining blob. -/
def decodeMat : List ℚ → Option (List (List ℚ) × List ℚ)
  | [] => none
  | q :: rest => decodeRows q.num.toNat rest

/-- Serialize a fitted explainer to a flat blob. -/
def serializeExplainer (e : ExplainerData) : List ℚ :=
  encodeMat e.weights ++ encodeMat e.corpusLatents ++ encodeMat e.testLatents

/-- Deserialize a fitted explainer from a blob, requiring the blob to be
   fully consumed. -/
def deserializeExplainer (l : List ℚ) : Option ExplainerData :=
  match decodeMat l with
  | none => none
  | some (w, r1) =>
    match decodeMat r1 with
    | none => none
    | some (c, r2) =>
      match decodeMat r2 with
      | none => none
      | some (tl, r3) =>
          if r3 = [] then some ⟨w, c, tl⟩ else none

theorem natCast_num_toNat (n : ℕ) : ((n : ℚ)).num.toNat = n := by
  rw [Rat.num_natCast, Int.toNat_natCast]

theorem decodeVec_encodeVec (v r : List ℚ) :
    decodeVec (encodeVec v ++ r) = some (v, r) := by
  show decodeVec (((v.length : ℚ)) :: (v ++ r)) = some (v, r)
  rw [decodeVec, natCast_num_toNat]
  rw [if_pos (by rw [List.length_append]; omega)]
  rw [List.take_left, List.drop_left]

theorem decodeRows_encodeRows (m : List (List ℚ)) (r : List ℚ) :
    decodeRows m.length (encodeRows m ++ r) = some (m, r) := by
  induction m generalizing r with
  | nil =>
    show decodeRows 0 r = some ([], r)
    rfl
  | cons v m ih =>
    show decodeRows (m.length + 1) ((encodeVec v ++ encodeRows m) ++ r) = _
    rw [List.append_assoc]
    show decodeRows (Nat.succ m.length) (encodeVec v ++ (encodeRows m ++ r))
      = _
    rw [decodeRows, decodeVec_encodeVec]
    dsimp only
    rw [ih]

theorem decodeMat_encodeMat (m : List (List ℚ)) (r : List ℚ) :
    decodeMat (encodeMat m ++ r) = some (m, r) := by
  show decodeMat (((m.length : ℚ)) :: (encodeRows m ++ r)) = some (m, r)
  rw [decodeMat, natCast_num_toNat, decodeRows_encodeRows]

theorem deserialize_serialize (e : ExplainerData) :
    deserializeExplainer (serializeExplainer e) = some e := by
  rw [serializeExplainer, List.append_assoc, deserializeExplainer,
    decodeMat_encodeMat]
  dsimp only
  have h2 : decodeMat (encodeMat e.corpusLatents ++ encodeMat e.testLatents)
      = some (e.corpusLatents, encodeMat e.testLatents) :=
    decodeMat_encodeMat _ _
  rw [h2]
  dsimp only
  have h3 : decodeMat (encodeMat e.testLatents) =
      some (e.testLatents, []) := by
    rw [← List.append_nil (encodeMat e.testLatents)]
    exact decodeMat_encodeMat _ _
  rw [h3]
  rfl

/-- C7: serializing a fitted explainer to persistent storage and
   deserializing it yields an explainer whose `latent_approx` and
   `output_approx` outputs are identical to those of the original. -/
theorem explainer_roundtrip_preserves_approx (e : ExplainerData) :
    ∃ e2, deserializeExplainer (serializeExplainer e) = some e2 ∧
      latentApproxL e2 = latentApproxL e ∧
      outputApproxL e2 = outputApproxL e :=
  ⟨e, deserialize_serialize e, rfl, rfl⟩

set_option maxRecDepth 100000

/-! ### The regularization scheduler -/

/-- Modelled from the spec (§4.1): `utils.schedulers.ExponentialScheduler`,
   constructed as `ExponentialScheduler(x_init, x_final, n_epoch)`. -/
structure ExponentialScheduler where
  x_init : ℝ
  x_final : ℝ
  n_epoch : ℕ

/-- Modelled from the spec (§4.1): exponential / log-linear interpolation
   `initial * (final/initial)^(step/total_steps)`. -/
noncomputable def ExponentialScheduler.value_at (s : ExponentialScheduler)
    (step : ℕ) : ℝ :=
  s.x_init * (s.x_final / s.x_init) ^ ((step : ℝ) / (s.n_epoch : ℝ))

/-- C2: for a scheduler with positive endpoints and at least one step,
   `value_at` equals the exponential interpolation formula, takes the value
   `initial` at step 0 and `final` at the last step, and the step sequence
   is strictly monotonic: increasing when `final > initial` and decreasing
   when `final < initial`. -/
theorem exponential_scheduler_spec (xi xf : ℝ) (N : ℕ) (hxi : 0 < xi)
    (hxf : 0 < xf) (hN : 1 ≤ N) :
    (∀ step : ℕ, (ExponentialScheduler.mk xi xf N).value_at step =
      xi * (xf / xi) ^ ((step : ℝ) / (N : ℝ))) ∧
    (ExponentialScheduler.mk xi xf N).value_at 0 = xi ∧
    (ExponentialScheduler.mk xi xf N).value_at N = xf ∧
    (xi < xf → ∀ s1 s2 : ℕ, s1 < s2 → s2 ≤ N →
      (ExponentialScheduler.mk xi xf N).value_at s1 <
        (ExponentialScheduler.mk xi xf N).value_at s2) ∧
    (xf < xi → ∀ s1 s2 : ℕ, s1 < s2 → s2 ≤ N →
      (ExponentialScheduler.mk xi xf N).value_at s2 <
        (ExponentialScheduler.mk xi xf N).value_at s1) := by
  have hNQ : (0 : ℝ) < (N : ℝ) := by
    have : 0 < N := hN
    exact_mod_cast this
  have hexp : ∀ s1 s2 : ℕ, s1 < s2 →
      ((s1 : ℝ) / (N : ℝ)) < ((s2 : ℝ) / (N : ℝ)) := by
    intro s1 s2 h12
    rw [div_lt_div_right hNQ]
    exact_mod_cast h12
  refine ⟨fun _ => rfl, ?_, ?_, ?_, ?_⟩
  · show xi * (xf / xi) ^ (((0 : ℕ) : ℝ) / (N : ℝ)) = xi
    rw [Nat.cast_zero, zero_div, Real.rpow_zero, mul_one]
  · rw [ExponentialScheduler.value_at]
    show xi * (xf / xi) ^ ((N : ℝ) / (N : ℝ)) = xf
    rw [div_self (ne_of_gt hNQ), Real.rpow_one]
    field_simp
  · intro hlt s1 s2 h12 hs2
    show xi * (xf / xi) ^ ((s1 : ℝ) / (N : ℝ)) <
      xi * (xf / xi) ^ ((s2 : ℝ) / (N : ℝ))
    have hbase : 1 < xf / xi := (one_lt_div hxi).mpr hlt
    refine mul_lt_mul_of_pos_left ?_ hxi
    exact (Real.rpow_lt_rpow_left_iff hbase).mpr (hexp s1 s2 h12)
  · intro hlt s1 s2 h12 hs2
    show xi * (xf / xi) ^ ((s2 : ℝ) / (N : ℝ)) <
      xi * (xf / xi) ^ ((s1 : ℝ) / (N : ℝ))
    have hb0 : 0 < xf / xi := div_pos hxf hxi
    have hb1 : xf / xi < 1 := (div_lt_one hxi).mpr hlt
    refine mul_lt_mul_of_pos_left ?_ hxi
    exact (Real.rpow_lt_rpow_left_iff_of_base_lt_one hb0 hb1).mpr
      (hexp s1 s2 h12)

/-- Witness for C2 at a concrete scheduler: initial 1, final 2, 4 steps. -/
theorem exponential_scheduler_spec_witness :
    (∀ step : ℕ, (ExponentialScheduler.mk 1 2 4).value_at step =
      1 * (2 / 1) ^ ((step : ℝ) / ((4 : ℕ) : ℝ))) ∧
    (ExponentialScheduler.mk 1 2 4).value_at 0 = 1 ∧
    (ExponentialScheduler.mk 1 2 4).value_at 4 = 2 ∧
    ((1 : ℝ) < 2 → ∀ s1 s2 : ℕ, s1 < s2 → s2 ≤ 4 →
      (ExponentialScheduler.mk 1 2 4).value_at s1 <
        (ExponentialScheduler.mk 1 2 4).value_at s2) ∧
    ((2 : ℝ) < 1 → ∀ s1 s2 : ℕ, s1 < s2 → s2 ≤ 4 →
      (ExponentialScheduler.mk 1 2 4).value_at s2 <
        (ExponentialScheduler.mk 1 2 4).value_at s1) :=
  exponential_scheduler_spec 1 2 4 (by norm_num) (by norm_num) (by norm_num)

/-! ### The outlier-detection driver (`experiments/mnist.py`,
`outlier_detection`) -/

/-- Scheduler constructed by `outlier_detection`:
   `ExponentialScheduler(1, 1, n_epoch=1)` (mnist.py line 292). -/
noncomputable def outlierScheduler : ExponentialScheduler :=
  ExponentialScheduler.mk 1 1 1

/-- Epoch count passed by `outlier_detection` to `Simplex.fit`
   (mnist.py line 297). -/
def outlierFitEpochs : ℕ := 10000

/-- Steps at which the modelled fit queries its regularization schedule:
   epochs `1 .. n_epoch` (spec §4.2 step 2a). -/
def fitScheduleSteps (n : ℕ) : Finset ℕ :=
  (Finset.range n).image (fun e => e + 1)

/-- The optimizer consults the schedule only at the steps in
   `fitScheduleSteps`: two schedules agreeing there yield the same fit. -/
theorem runEpochs_congr_sched (C D T : ℕ) (X : Fin C → Fin D → ℚ)
    (Y : Fin T → Fin D → ℚ) (lr mu : ℚ) (s1 s2 : ℕ → ℚ) (n : ℕ)
    (h : ∀ e ∈ fitScheduleSteps n, s1 e = s2 e) :
    runEpochs C D T X Y lr mu s1 n = runEpochs C D T X Y lr mu s2 n := by
  induction n with
  | zero => rfl
  | succ n ih =>
    have hsub : ∀ e ∈ fitScheduleSteps n, s1 e = s2 e := by
      intro e he
      refine h e ?_
      rw [fitScheduleSteps, Finset.mem_image] at he ⊢
      obtain ⟨a, ha, rfl⟩ := he
      exact ⟨a, Finset.mem_range.mpr (Nat.lt_succ_of_lt
        (Finset.mem_range.mp ha)), rfl⟩
    have hlast : s1 (n + 1) = s2 (n + 1) := by
      refine h (n + 1) ?_
      rw [fitScheduleSteps, Finset.mem_image]
      exact ⟨n, Finset.mem_range.mpr (Nat.lt_succ_self n), rfl⟩
    show fitStep C D T X Y lr mu (s1 (n + 1)) _ = _
    rw [ih hsub, hlast]
    rfl

/-- C9: in `outlier_detection`, `Simplex.fit` is invoked with
   `n_epoch = 10000` while the scheduler passed to it was constructed with
   `total_steps = 1`, so the schedule is consulted at every epoch step
   `2 ≤ e ≤ 10000` outside the scheduler's documented domain
   `0 ≤ step ≤ total_steps`; since `initial = final = 1` the schedule is
   constant 1 and the fit nevertheless runs to completion. -/
theorem outlier_detection_scheduler_out_of_domain :
    (∀ e : ℕ, 2 ≤ e → e ≤ outlierFitEpochs →
      e ∈ fitScheduleSteps outlierFitEpochs ∧ outlierScheduler.n_epoch < e) ∧
    (∀ step : ℕ, outlierScheduler.value_at step = 1) ∧
    (∀ corpus test : List (List ℚ), ∀ lr mu : ℚ, 1 ≤ corpus.length →
      matWidth corpus = matWidth test →
      (simplexFit corpus test corpus.length outlierFitEpochs lr mu
        (fun _ => 1)).isOk = true) := by
  refine ⟨?_, ?_, ?_⟩
  · intro e h2 h10000
    constructor
    · rw [fitScheduleSteps, Finset.mem_image]
      refine ⟨e - 1, Finset.mem_range.mpr ?_, ?_⟩
      · rw [outlierFitEpochs] at h10000 ⊢
        omega
      · omega
    · show 1 < e
      omega
  · intro step
    rw [outlierScheduler, ExponentialScheduler.value_at]
    show (1 : ℝ) * ((1 : ℝ) / 1) ^ ((step : ℝ) / ((1 : ℕ) : ℝ)) = 1
    rw [div_one, Real.one_rpow, mul_one]
  · intro corpus test lr mu hC hw
    rw [simplexFit, if_neg (fun hne => hne hw),
      if_neg (by push_neg; omega)]
    rfl

/-- Witness for C9 at concrete values: epoch step 2, scheduler step 5, and
   a one-point corpus and test set. -/
theorem outlier_detection_scheduler_out_of_domain_witness :
    (2 ∈ fitScheduleSteps outlierFitEpochs ∧
      outlierScheduler.n_epoch < 2) ∧
    outlierScheduler.value_at 5 = 1 ∧
    (simplexFit [[0]] [[0]] ([[(0 : ℚ)]].length) outlierFitEpochs 1 (1/2)
      (fun _ => 1)).isOk = true :=
  ⟨outlier_detection_scheduler_out_of_domain.1 2 (by norm_num) (by decide),
    outlier_detection_scheduler_out_of_domain.2.1 5,
    outlier_detection_scheduler_out_of_domain.2.2 [[0]] [[0]] 1 (1/2)
      (by decide) rfl⟩

/-! ### Outlier ranking by residual

`outlier_detection` (mnist.py line 305) ranks test points by
`torch.sqrt(((test_latent_reps - test_latent_approx) ** 2).mean(dim=-1))`,
while `plot_results.py` (line 42) ranks by
`((latents_true - approx) ** 2).mean(dim=-1)`; both then take
`torch.topk`. -/

/-- Mean squared residual of one row:
   `((true_row - approx_row) ** 2).mean()`. -/
noncomputable def rowMeanSq (a b : List ℝ) : ℝ :=
  (List.zipWith (fun x y => (x - y) ^ 2) a b).sum /
    ((List.zipWith (fun x y => (x - y) ^ 2) a b).length : ℝ)

/-- Per-row mean squared residuals of a pair of latent matrices, the
   ranking score of `plot_results.py`. -/
noncomputable def msResiduals (latentsTrue latentsApprox : List (List ℝ)) : List ℝ :=
  List.zipWith rowMeanSq latentsTrue latentsApprox

/-- Comparison used by `torch.topk`: larger scores first, ties broken
   stably by the lower index. -/
def topkOrd (v : List ℝ) (i j : ℕ) : Prop :=
  v.getD j 0 < v.getD i 0 ∨ (v.getD i 0 = v.getD j 0 ∧ i ≤ j)

noncomputable instance (v : List ℝ) : DecidableRel (topkOrd v) := fun i j =>
  inferInstanceAs (Decidable (_ ∨ _))

/-- Indices of the `k` largest scores, as selected by `torch.topk`. -/
noncomputable def topkIdx (v : List ℝ) (k : ℕ) : List ℕ :=
  (List.insertionSort (topkOrd v) (List.range v.length)).take k

theorem orderedInsert_congr {α : Type} (r s : α → α → Prop) [DecidableRel r]
    [DecidableRel s] (h : ∀ a b, r a b ↔ s a b) (a : α) (l : List α) :
    List.orderedInsert r a l = List.orderedInsert s a l := by
  induction l with
  | nil => rfl
  | cons b l ih =>
    show (if r a b then a :: b :: l else b :: List.orderedInsert r a l) =
      (if s a b then a :: b :: l else b :: List.orderedInsert s a l)
    by_cases hr : r a b
    · rw [if_pos hr, if_pos ((h a b).mp hr)]
    · rw [if_neg hr, if_neg (fun hs => hr ((h a b).mpr hs)), ih]

theorem insertionSort_congr {α : Type} (r s : α → α → Prop) [DecidableRel r]
    [DecidableRel s] (h : ∀ a b, r a b ↔ s a b) (l : List α) :
    List.insertionSort r l = List.insertionSort s l := by
  induction l with
  | nil => rfl
  | cons a l ih =>
    show List.orderedInsert r a (List.insertionSort r l) =
      List.orderedInsert s a (List.insertionSort s l)
    rw [ih, orderedInsert_congr r s h]

theorem msResiduals_getD_nonneg (latentsTrue latentsApprox : List (List ℝ))
    (i : ℕ) : 0 ≤ (msResiduals latentsTrue latentsApprox).getD i 0 := by
  by_cases hi : i < (msResiduals latentsTrue latentsApprox).length
  · rw [List.getD_eq_getElem _ _ hi]
    show 0 ≤ (List.zipWith rowMeanSq latentsTrue latentsApprox)[i]
    rw [List.getElem_zipWith]
    rw [rowMeanSq]
    refine div_nonneg ?_ (Nat.cast_nonneg _)
    exact List.sum_nonneg (fun x hx => by
      rcases List.mem_iff_get.mp hx with ⟨idx, rfl⟩
      rw [List.get_eq_getElem, List.getElem_zipWith]
      exact sq_nonneg _)
  · push_neg at hi
    rw [List.getD_eq_default _ _ hi]

theorem map_sqrt_getD (v : List ℝ) (i : ℕ) :
    (v.map Real.sqrt).getD i 0 = Real.sqrt (v.getD i 0) := by
  by_cases hi : i < v.length
  · have hi2 : i < (v.map Real.sqrt).length := by
      rw [List.length_map]; exact hi
    rw [List.getD_eq_getElem _ _ hi2, List.getD_eq_getElem _ _ hi,
      List.getElem_map]
  · push_neg at hi
    have hi2 : (v.map Real.sqrt).length ≤ i := by
      rw [List.length_map]; exact hi
    rw [List.getD_eq_default _ _ hi2, List.getD_eq_default _ _ hi,
      Real.sqrt_zero]

/-- C10: because the square root is strictly increasing on nonnegative
   reals, ranking test points by the root-mean-squared per-row residual (as
   in `outlier_detection`) and by the mean-squared per-row residual (as in
   `plot_results.py`) selects the same top-`k` indices, for every `k`. -/
theorem topk_rmse_eq_topk_mse (latentsTrue latentsApprox : List (List ℝ))
    (k : ℕ) :
    topkIdx ((msResiduals latentsTrue latentsApprox).map Real.sqrt) k =
      topkIdx (msResiduals latentsTrue latentsApprox) k := by
  set v := msResiduals latentsTrue latentsApprox with hv
  have hnn : ∀ i, 0 ≤ v.getD i 0 := fun i =>
    msResiduals_getD_nonneg latentsTrue latentsApprox i
  have hord : ∀ i j, topkOrd (v.map Real.sqrt) i j ↔ topkOrd v i j := by
    intro i j
    rw [topkOrd, topkOrd, map_sqrt_getD, map_sqrt_getD]
    constructor
    · rintro (hlt | ⟨heq, hle⟩)
      · exact Or.inl ((Real.sqrt_lt_sqrt_iff (hnn j)).mp hlt)
      · exact Or.inr ⟨(Real.sqrt_inj (hnn i) (hnn j)).mp heq, hle⟩
    · rintro (hlt | ⟨heq, hle⟩)
      · exact Or.inl ((Real.sqrt_lt_sqrt_iff (hnn j)).mpr hlt)
      · exact Or.inr ⟨(Real.sqrt_inj (hnn i) (hnn j)).mpr heq, hle⟩
  rw [topkIdx, topkIdx, List.length_map,
    insertionSort_congr (topkOrd (v.map Real.sqrt)) (topkOrd v) hord]

/-! ### Dependence of the reconstruction error on the epoch count -/

/-- Mean squared latent reconstruction error of the explainer fitted with
   `n_epoch` epochs (all other parameters fixed). -/
def mseLatent (corpus test : List (List ℚ)) (k n_epoch : ℕ) (lr mu : ℚ)
    (sched : ℕ → ℚ) : ℚ :=
  (∑ t, ∑ d, (latentApproxF corpus.length (matWidth corpus) test.length
      (fun c d2 => (corpus.get c).getD d2 0)
      (simplexWeights corpus test k n_epoch lr mu sched) t d -
      (test.get t).getD d 0) ^ 2) /
    ((test.length : ℚ) * (matWidth corpus : ℚ))

/-- Best (smallest) mean squared latent reconstruction error over all epoch
   counts up to `n`. -/
def bestMseLatent (corpus test : List (List ℚ)) (k : ℕ) (lr mu : ℚ)
    (sched : ℕ → ℚ) : ℕ → ℚ
  | 0 => mseLatent corpus test k 0 lr mu sched
  | Nat.succ n => min (bestMseLatent corpus test k lr mu sched n)
      (mseLatent corpus test k (n + 1) lr mu sched)

/-- Counterexample to C8 as stated: with corpus latents `(0)` and `(1)`,
   test latent `(3/10)`, `n_keep = 2`, learning rate 10, no momentum and a
   zero regularization schedule, the error after 2 epochs (`49/100`)
   strictly exceeds the error after 1 epoch (`9/100`): the gradient step
   overshoots, so the error is not monotone in the epoch count. -/
theorem mse_epoch_monotone_counterexample :
    ¬ (∀ corpus test : List (List ℚ), ∀ k : ℕ, ∀ lr mu : ℚ,
      ∀ sched : ℕ → ℚ, ∀ n1 n2 : ℕ, n1 ≤ n2 →
        mseLatent corpus test k n2 lr mu sched ≤
          mseLatent corpus test k n1 lr mu sched) := by
  intro hall
  have h := hall [[0], [1]] [[3/10]] 2 10 0 (fun _ => 0) 1 2 (by norm_num)
  have hgt : ¬ (mseLatent [[0], [1]] [[3/10]] 2 2 10 0 (fun _ => 0) ≤
      mseLatent [[0], [1]] [[3/10]] 2 1 10 0 (fun _ => 0)) := by
    with_unfolding_all decide
  exact hgt h

/-- C8 (amended): holding all other fit parameters fixed, increasing
   `n_epoch` does not increase the best mean squared latent reconstruction
   error seen over the epochs run so far: for all `n_epoch1 ≤ n_epoch2`, the
   minimum error over epoch counts up to `n_epoch2` is at most the minimum
   over epoch counts up to `n_epoch1`.  (The per-epoch-count error itself is
   not monotone; see the counterexample.) -/
theorem best_mse_epoch_monotone (corpus test : List (List ℚ)) (k : ℕ)
    (lr mu : ℚ) (sched : ℕ → ℚ) (n1 n2 : ℕ) (h : n1 ≤ n2) :
    bestMseLatent corpus test k lr mu sched n2 ≤
      bestMseLatent corpus test k lr mu sched n1 := by
  induction n2, h using Nat.le_induction with
  | base => exact le_rfl
  | succ n hmn ih =>
    refine le_trans ?_ ih
    exact min_le_left _ _

/-- Witness for the amended C8 at a concrete instance. -/
theorem best_mse_epoch_monotone_witness :
    bestMseLatent [[0], [1]] [[3/10]] 2 10 0 (fun _ => 0) 2 ≤
      bestMseLatent [[0], [1]] [[3/10]] 2 10 0 (fun _ => 0) 1 :=
  best_mse_epoch_monotone [[0], [1]] [[3/10]] 2 10 0 (fun _ => 0) 1 2
    (by norm_num)
